import Mathlib

/-!
Verification of the `gerbil-ini` parser (`src/ini.rs`).

Strings are modelled as `List Char` (Rust `str` slicing in this parser only
ever cuts at char boundaries: the cut points are positions of the one-byte
chars `[`, `]` and `=`).  `BTreeMap` is modelled as an association list whose
insertions only ever happen after a `contains_key` check, exactly as in the
source; lookup is by exact equality of the key, matching `BTreeMap<String, _>`
on strings.
-/

namespace GerbilIni

/-- Rust `char::is_whitespace`: the Unicode `White_Space` property. -/
def isRustWhitespace (c : Char) : Bool :=
  c.toNat == 0x09 || c.toNat == 0x0A || c.toNat == 0x0B || c.toNat == 0x0C ||
  c.toNat == 0x0D || c.toNat == 0x20 || c.toNat == 0x85 || c.toNat == 0xA0 ||
  c.toNat == 0x1680 || (0x2000 ≤ c.toNat && c.toNat ≤ 0x200A) ||
  c.toNat == 0x2028 || c.toNat == 0x2029 || c.toNat == 0x202F ||
  c.toNat == 0x205F || c.toNat == 0x3000

/-- Rust `str::trim_start`: drop leading whitespace. -/
def trimStartList (cs : List Char) : List Char :=
  cs.dropWhile isRustWhitespace

/-- Rust `str::trim_end`: drop trailing whitespace. -/
def trimEndList (cs : List Char) : List Char :=
  (cs.reverse.dropWhile isRustWhitespace).reverse

/-- Rust `line.find(t)` followed by splitting: `some (before, after)` cuts the
list at the first occurrence of `t` (the occurrence itself is dropped from
`after`, as in `split_at(l)` plus `[1..]`); `none` when `t` does not occur. -/
def splitFirst (t : Char) : List Char → Option (List Char × List Char)
  | [] => none
  | c :: rest =>
    if c = t then some ([], rest)
    else
      match splitFirst t rest with
      | none => none
      | some (a, b) => some (c :: a, b)

/-- Helper for `rustLines`: reverse the accumulated line, stripping one
trailing `\r` (the accumulator holds the line reversed, so the `\r` is at its
head).  Applied only to lines that were terminated by `\n`, as in Rust. -/
def stripCRrev (acc : List Char) : List Char :=
  match acc with
  | '\r' :: acc2 => acc2.reverse
  | _ => acc.reverse

/-- Worker for `rustLines`; `acc` is the current line accumulated in reverse. -/
def rustLinesAux : List Char → List Char → List (List Char)
  | [], [] => []
  | [], acc => [acc.reverse]
  | '\n' :: rest, acc => stripCRrev acc :: rustLinesAux rest []
  | c :: rest, acc => rustLinesAux rest (c :: acc)

/-- Rust `str::lines`: split at `\n`, strip one `\r` before a `\n`, no empty
final line for a trailing terminator, a final unterminated line is kept
verbatim (including a trailing `\r`). -/
def rustLines (s : List Char) : List (List Char) :=
  rustLinesAux s []

/-- Rust `Iterator::enumerate` starting from `k`: pair every element with its
index.  `numberFrom 0` is exactly `enumerate()`. -/
def numberFrom (k : Nat) : List α → List (Nat × α)
  | [] => []
  | a :: rest => (k, a) :: numberFrom (k + 1) rest

/-- `IniMode` from `src/ini.rs`. -/
inductive IniMode where
  | Simple
  | SimpleTrimmed
deriving DecidableEq

/-- First-match lookup in an association list; models `BTreeMap::get` (the
lists we build never hold two entries with the same key, see `sectionsWf`). -/
def lookupList : List (List Char × α) → List Char → Option α
  | [], _ => none
  | (k, v) :: rest, key => if k = key then some v else lookupList rest key

/-- Models `BTreeMap::contains_key`. -/
def containsK (m : List (List Char × α)) (k : List Char) : Bool :=
  (lookupList m k).isSome

/-- `IniSection` from `src/ini.rs`: the `values` map of a section. -/
structure IniSection where
  values : List (List Char × List Char)
deriving DecidableEq

/-- `Ini` from `src/ini.rs`: the `sections` map of a parsed document. -/
structure Ini where
  sections : List (List Char × IniSection)
deriving DecidableEq

/-- `Ini::get_section`. -/
def Ini.get_section (ini : Ini) (sectionName : List Char) : Option IniSection :=
  lookupList ini.sections sectionName

/-- `IniSection::get`. -/
def IniSection.get (s : IniSection) (key : List Char) : Option (List Char) :=
  lookupList s.values key

/-- `ini.sections.get_mut(name)` followed by `s.values.insert(key, value)`:
append `(key, value)` to the values of the (first) section named `name`.  The
parser only calls this after checking the key is absent. -/
def insertIntoSection : List (List Char × IniSection) → List Char → List Char → List Char →
    List (List Char × IniSection)
  | [], _, _, _ => []
  | (n, s) :: rest, sectionName, key, value =>
    if n = sectionName then (n, ⟨s.values ++ [(key, value)]⟩) :: rest
    else (n, s) :: insertIntoSection rest sectionName key value

/-- `IniParsingError` from `src/ini.rs`.  `line_number` fields hold the value
produced by `enumerate()`, which counts from 0. -/
inductive IniParsingError where
  | MissingEquals (line_number : Nat)
  | ExpectedSectionTitle (line_number : Nat)
  | BrokenSectionTitle (line_number : Nat)
  | DuplicateSection (line_number : Nat) (sectionName : List Char)
  | DuplicateSectionKey (line_number : Nat) (sectionName : List Char) (key : List Char)
deriving DecidableEq

/-- The `line_number` field carried by an error. -/
def IniParsingError.lineNumber : IniParsingError → Nat
  | .MissingEquals ln => ln
  | .ExpectedSectionTitle ln => ln
  | .BrokenSectionTitle ln => ln
  | .DuplicateSection ln _ => ln
  | .DuplicateSectionKey ln _ _ => ln

/-- `COMMENT_CHARS` from `src/ini.rs`. -/
def COMMENT_CHARS : List Char := [';', '#']

/-- Does `targets` contain the first char of `cs`?  Models
`line.chars().next().iter().any(|i| COMMENT_CHARS.contains(i))`. -/
def firstCharIn (cs : List Char) (targets : List Char) : Bool :=
  match cs with
  | c :: _ => targets.contains c
  | [] => false

/-- The skip condition of `parse_simple` (line 70 of `src/ini.rs`): first char
is a comment delimiter, or the line is empty, or all chars are whitespace. -/
def lineSkipped (line : List Char) : Bool :=
  firstCharIn line COMMENT_CHARS || line.isEmpty || line.all isRustWhitespace

/-- `line.starts_with('[')`. -/
def lineStartsWithBracket (line : List Char) : Bool :=
  match line with
  | c :: _ => c == '['
  | [] => false

/-- The key actually stored for a raw key slice, per mode (the `match config`
at lines 96–105 of `src/ini.rs`). -/
def effKey (config : IniMode) (keyStr : List Char) : List Char :=
  match config with
  | .Simple => keyStr
  | .SimpleTrimmed => trimEndList keyStr

/-- The value actually stored for a raw value slice, per mode. -/
def effValue (config : IniMode) (valueStr : List Char) : List Char :=
  match config with
  | .Simple => valueStr
  | .SimpleTrimmed => trimStartList valueStr

/-- The state threaded through the `while let` loop of `parse_simple`: the
document built so far and the current section name. -/
structure ParseState where
  ini : Ini
  currentSection : Option (List Char)
deriving DecidableEq

/-- The state at loop entry: `Ini::default()` and `section = None`. -/
def initState : ParseState :=
  ⟨⟨[]⟩, none⟩

/-- One iteration of the loop body of `parse_simple` on the line numbered
`ln`.  The first `]` of the whole line is the first `]` of `line.drop 1`
because the head of a header line is `[`, which is not `]`.  The
`lookupList … = none` branch of the key/value arm corresponds to the
`.unwrap()` at line 107 of the source: the current section is always present
in the document (it is inserted at the moment it becomes current), so that
branch is unreachable from `initState`. -/
def processLine (config : IniMode) (st : ParseState) (ln : Nat) (line : List Char) :
    Except IniParsingError ParseState :=
  if lineSkipped line then .ok st
  else if lineStartsWithBracket line then
    match splitFirst ']' (line.drop 1) with
    | none => .error (.BrokenSectionTitle ln)
    | some (title, _) =>
      if containsK st.ini.sections title then .error (.DuplicateSection ln title)
      else .ok ⟨⟨st.ini.sections ++ [(title, ⟨[]⟩)]⟩, some title⟩
  else
    match st.currentSection with
    | none => .error (.ExpectedSectionTitle ln)
    | some sname =>
      match splitFirst '=' line with
      | none => .error (.MissingEquals ln)
      | some (keyStr, valueStr) =>
        match lookupList st.ini.sections sname with
        | none => .ok st
        | some s =>
          if containsK s.values (effKey config keyStr) then
            .error (.DuplicateSectionKey ln sname (effKey config keyStr))
          else
            .ok ⟨⟨insertIntoSection st.ini.sections sname (effKey config keyStr)
              (effValue config valueStr)⟩, st.currentSection⟩

/-- The whole loop of `parse_simple` over a list of numbered lines. -/
def parseLines (config : IniMode) :
    List (Nat × List Char) → ParseState → Except IniParsingError ParseState
  | [], st => .ok st
  | (ln, line) :: rest, st =>
    match processLine config st ln line with
    | .error e => .error e
    | .ok st2 => parseLines config rest st2

/-- `Ini::parse_simple`. -/
def Ini.parse_simple (string : List Char) (config : IniMode) : Except IniParsingError Ini :=
  match parseLines config (numberFrom 0 (rustLines string)) initState with
  | .error e => .error e
  | .ok st => .ok st.ini

/-- `Ini::parse`: both modes dispatch to `parse_simple`, as in the source. -/
def Ini.parse (string : String) (config : IniMode) : Except IniParsingError Ini :=
  match config with
  | .Simple => Ini.parse_simple string.toList config
  | .SimpleTrimmed => Ini.parse_simple string.toList config

deriving instance DecidableEq for Except

/-- The document of a successful parse result (used to state closed facts
about parse results; the fallback is never reached in such statements). -/
def resultIni : Except IniParsingError Ini → Ini
  | .ok ini => ini
  | .error _ => ⟨[]⟩

/-- Decimal digits of a natural number, as rendered by Rust's
`{line_number}` formatting. -/
def natChars (n : Nat) : List Char :=
  Nat.toDigits 10 n

/-- `impl Display for IniParsingError` (lines 137–147 of `src/ini.rs`),
rendered to a char list. -/
def IniParsingError.display : IniParsingError → List Char
  | .MissingEquals ln =>
    natChars ln ++ (": Missing an `=` to separate the key and value").toList
  | .ExpectedSectionTitle ln =>
    natChars ln ++ (": Expected a section title").toList
  | .BrokenSectionTitle ln =>
    natChars ln ++ (": Expected a `]` to close a `[`").toList
  | .DuplicateSection ln sectionName =>
    natChars ln ++ (": Duplicate section `").toList ++ sectionName ++ ("`").toList
  | .DuplicateSectionKey ln sectionName key =>
    natChars ln ++ (": Duplicate key `").toList ++ key ++
      ("` in section `").toList ++ sectionName ++ ("`").toList

/-- `leadsWith pat l`: `pat` is an initial segment of `l`. -/
def leadsWith : List Char → List Char → Bool
  | [], _ => true
  | _ :: _, [] => false
  | p :: ps, c :: cs => (p == c) && leadsWith ps cs

/-- `occursIn pat l`: `pat` occurs contiguously somewhere in `l`. -/
def occursIn : List Char → List Char → Bool
  | pat, [] => leadsWith pat []
  | pat, c :: rest => leadsWith pat (c :: rest) || occursIn pat rest

/-! ### Basic lemmas about the helpers -/

theorem leadsWith_self_append (p b : List Char) : leadsWith p (p ++ b) = true := by
  induction p with
  | nil => rfl
  | cons c cs ih => simp [leadsWith, ih]

theorem occursIn_mid (a p b : List Char) : occursIn p (a ++ (p ++ b)) = true := by
  induction a with
  | nil =>
    cases h : p ++ b with
    | nil =>
      have hp : p = [] := by
        cases p with
        | nil => rfl
        | cons c cs => simp at h
      simp [hp, occursIn, leadsWith]
    | cons c cs =>
      simp only [List.nil_append, h, occursIn]
      rw [← h]
      simp [leadsWith_self_append]
  | cons c cs ih =>
    simp only [List.cons_append, occursIn]
    simp [ih]

theorem occursIn_self_append (p b : List Char) : occursIn p (p ++ b) = true := by
  have := occursIn_mid [] p b
  simpa using this

theorem splitFirst_append_of_absent (t : Char) (k v : List Char)
    (hk : k.all (fun c => !(c == t)) = true) :
    splitFirst t (k ++ t :: v) = some (k, v) := by
  induction k with
  | nil => simp [splitFirst]
  | cons c cs ih =>
    simp only [List.all_cons, Bool.and_eq_true, Bool.not_eq_true'] at hk
    have hne : ¬ (c = t) := by
      intro hc
      rw [hc] at hk
      simp at hk
    simp only [List.cons_append, splitFirst, if_neg hne, List.append_eq]
    rw [ih hk.2]

theorem dropWhile_append_of_all (p : Char → Bool) (w l : List Char)
    (h : w.all p = true) : (w ++ l).dropWhile p = l.dropWhile p := by
  induction w with
  | nil => rfl
  | cons c cs ih =>
    simp only [List.all_cons, Bool.and_eq_true] at h
    simp [List.dropWhile, h.1, ih h.2]

theorem trimStartList_ws_append (w v : List Char) (hw : w.all isRustWhitespace = true) :
    trimStartList (w ++ v) = trimStartList v :=
  dropWhile_append_of_all isRustWhitespace w v hw

theorem trimEndList_append_ws (k w : List Char) (hw : w.all isRustWhitespace = true) :
    trimEndList (k ++ w) = trimEndList k := by
  unfold trimEndList
  rw [List.reverse_append, dropWhile_append_of_all]
  simpa using hw

theorem ws_ne_semi {c : Char} (h : isRustWhitespace c = true) : c ≠ ';' := by
  intro hc; rw [hc] at h; exact absurd h (by decide)

theorem ws_ne_hash {c : Char} (h : isRustWhitespace c = true) : c ≠ '#' := by
  intro hc; rw [hc] at h; exact absurd h (by decide)

theorem ws_ne_bracket {c : Char} (h : isRustWhitespace c = true) : c ≠ '[' := by
  intro hc; rw [hc] at h; exact absurd h (by decide)

theorem ws_ne_equals {c : Char} (h : isRustWhitespace c = true) : (c == '=') = false := by
  cases hc : c == '=' with
  | false => rfl
  | true =>
    have : c = '=' := by exact eq_of_beq hc
    rw [this] at h
    exact absurd h (by decide)

/-- A list containing a non-whitespace char is not all-whitespace. -/
theorem not_all_ws_of_mem {l : List Char} {c : Char} (hc : c ∈ l)
    (hw : isRustWhitespace c = false) : l.all isRustWhitespace = false := by
  cases h : l.all isRustWhitespace with
  | false => rfl
  | true =>
    rw [List.all_eq_true] at h
    have := h c hc
    rw [hw] at this
    exact absurd this (by decide)

/-! ### Behavior of `processLine` and `parseLines` -/

theorem processLine_skipped (config : IniMode) (st : ParseState) (ln : Nat)
    {line : List Char} (h : lineSkipped line = true) :
    processLine config st ln line = .ok st := by
  simp [processLine, h]

theorem parseLines_append (config : IniMode) (a b : List (Nat × List Char)) (st : ParseState) :
    parseLines config (a ++ b) st =
      match parseLines config a st with
      | .error e => .error e
      | .ok st2 => parseLines config b st2 := by
  induction a generalizing st with
  | nil => rfl
  | cons x rest ih =>
    obtain ⟨ln, line⟩ := x
    simp only [List.cons_append, parseLines]
    cases processLine config st ln line with
    | error e => rfl
    | ok st2 => exact ih st2

theorem numberFrom_append (k : Nat) (a b : List (List Char)) :
    numberFrom k (a ++ b) = numberFrom k a ++ numberFrom (k + a.length) b := by
  induction a generalizing k with
  | nil => simp [numberFrom]
  | cons x rest ih =>
    have hlen : k + (x :: rest).length = k + 1 + rest.length := by
      simp only [List.length_cons]
      omega
    show (k, x) :: numberFrom (k + 1) (rest ++ b) =
      ((k, x) :: numberFrom (k + 1) rest) ++ numberFrom (k + (x :: rest).length) b
    rw [hlen, ih (k + 1)]
    rfl

theorem parseLines_all_skipped (config : IniMode) (k : Nat) (a : List (List Char))
    (st : ParseState) (h : ∀ l ∈ a, lineSkipped l = true) :
    parseLines config (numberFrom k a) st = .ok st := by
  induction a generalizing k with
  | nil => rfl
  | cons x rest ih =>
    simp only [numberFrom, parseLines]
    rw [processLine_skipped config st k (h x (List.mem_cons_self x rest))]
    exact ih (k + 1) (fun l hl => h l (List.mem_cons_of_mem x hl))

/-! ### Claim C1 -/

/-- C1 counterexample: the input `k=v` fails at the first line, whose 1-based
number is 1, yet the rendered message is `0: Expected a section title` — the
decimal string `1` does not occur in it at all, so the message does not
include the 1-based line number. -/
theorem display_one_based_counterexample :
    Ini.parse "k=v" .Simple = .error (.ExpectedSectionTitle 0) ∧
    (IniParsingError.ExpectedSectionTitle 0).display = ("0: Expected a section title").toList ∧
    occursIn ("1".toList) (IniParsingError.ExpectedSectionTitle 0).display = false := by
  refine ⟨by decide, by decide, by decide⟩

/-- C1 (amended): for every input on which parse fails, the rendered message
includes the 0-based line number carried by the error (`enumerate()` counts
lines from 0 and `Display` prints that field verbatim), and for
`DuplicateSection` / `DuplicateSectionKey` also the offending section/key
name. -/
theorem display_includes_line_number (s : String) (config : IniMode)
    (e : IniParsingError) (h : Ini.parse s config = .error e) :
    occursIn (natChars e.lineNumber) e.display = true ∧
    (∀ ln sname, e = .DuplicateSection ln sname → occursIn sname e.display = true) ∧
    (∀ ln sname key, e = .DuplicateSectionKey ln sname key →
      occursIn sname e.display = true ∧ occursIn key e.display = true) := by
  clear h
  cases e with
  | MissingEquals ln =>
    refine ⟨occursIn_self_append _ _, ?_, ?_⟩
    · intro ln2 sname2 heq
      simp at heq
    · intro ln2 sname2 key2 heq
      simp at heq
  | ExpectedSectionTitle ln =>
    refine ⟨occursIn_self_append _ _, ?_, ?_⟩
    · intro ln2 sname2 heq
      simp at heq
    · intro ln2 sname2 key2 heq
      simp at heq
  | BrokenSectionTitle ln =>
    refine ⟨occursIn_self_append _ _, ?_, ?_⟩
    · intro ln2 sname2 heq
      simp at heq
    · intro ln2 sname2 key2 heq
      simp at heq
  | DuplicateSection ln sname =>
    refine ⟨?_, ?_, ?_⟩
    · simp only [IniParsingError.lineNumber, IniParsingError.display, List.append_assoc]
      exact occursIn_self_append _ _
    · intro ln2 sname2 heq
      injection heq with h1 h2
      subst h1
      subst h2
      have := occursIn_mid (natChars ln ++ (": Duplicate section `").toList) sname (("`").toList)
      simpa [IniParsingError.display, List.append_assoc] using this
    · intro ln2 sname2 key2 heq
      simp at heq
  | DuplicateSectionKey ln sname key =>
    refine ⟨?_, ?_, ?_⟩
    · simp only [IniParsingError.lineNumber, IniParsingError.display, List.append_assoc]
      exact occursIn_self_append _ _
    · intro ln2 sname2 heq
      simp at heq
    · intro ln2 sname2 key2 heq
      injection heq with h1 h2 h3
      subst h1
      subst h2
      subst h3
      constructor
      · have := occursIn_mid
          (natChars ln ++ (": Duplicate key `").toList ++ key ++ ("` in section `").toList)
          sname (("`").toList)
        simpa [IniParsingError.display, List.append_assoc] using this
      · have := occursIn_mid (natChars ln ++ (": Duplicate key `").toList) key
          (("` in section `").toList ++ sname ++ ("`").toList)
        simpa [IniParsingError.display, List.append_assoc] using this

/-- C1 witness: the amended theorem applied to the failing input `k=v`. -/
theorem display_includes_line_number_witness :
    Ini.parse "k=v" .Simple = .error (.ExpectedSectionTitle 0) ∧
    occursIn (natChars (IniParsingError.ExpectedSectionTitle 0).lineNumber)
      (IniParsingError.ExpectedSectionTitle 0).display = true :=
  ⟨by decide, (display_includes_line_number "k=v" .Simple _ (by decide)).1⟩

/-! ### Claim C7 -/

/-- C7: the line `some KEY = This is a value!` inside a section stores, under
`SimpleTrimmed`, key `some KEY` and value `This is a value!`; under `Simple`
it stores key `some KEY ` (trailing space kept) and value
` This is a value!` (leading space kept). -/
theorem trimmed_mode_scenario :
    Ini.parse "[My Section]\nsome KEY = This is a value!" .SimpleTrimmed =
      .ok ⟨[(("My Section").toList,
        ⟨[(("some KEY").toList, ("This is a value!").toList)]⟩)]⟩ ∧
    Ini.parse "[My Section]\nsome KEY = This is a value!" .Simple =
      .ok ⟨[(("My Section").toList,
        ⟨[(("some KEY ").toList, (" This is a value!").toList)]⟩)]⟩ := by
  refine ⟨by decide, by decide⟩

/-! ### Claim C10 -/

/-- C10: the empty string is a legal section name, key, and value in both
modes: `[]` inserts a section named `""` that `get_section` returns, `=v`
inserts key `""` with value `v`, and `k=` inserts key `k` with value `""`;
none of these is an error. -/
theorem empty_names_legal :
    Ini.parse "[]" .Simple = .ok ⟨[([], ⟨[]⟩)]⟩ ∧
    Ini.parse "[]" .SimpleTrimmed = .ok ⟨[([], ⟨[]⟩)]⟩ ∧
    (resultIni (Ini.parse "[]" .Simple)).get_section [] = some ⟨[]⟩ ∧
    (resultIni (Ini.parse "[]" .SimpleTrimmed)).get_section [] = some ⟨[]⟩ ∧
    Ini.parse "[]\n=v" .Simple = .ok ⟨[([], ⟨[([], ("v").toList)]⟩)]⟩ ∧
    Ini.parse "[]\n=v" .SimpleTrimmed = .ok ⟨[([], ⟨[([], ("v").toList)]⟩)]⟩ ∧
    Ini.parse "[]\nk=" .Simple = .ok ⟨[([], ⟨[(("k").toList, [])]⟩)]⟩ ∧
    Ini.parse "[]\nk=" .SimpleTrimmed = .ok ⟨[([], ⟨[(("k").toList, [])]⟩)]⟩ := by
  decide

/-! ### More lemmas on line classification and `processLine` -/

theorem parse_eq_parse_simple (s : String) (config : IniMode) :
    Ini.parse s config = Ini.parse_simple s.toList config := by
  cases config <;> rfl

theorem lineSkipped_bracket (r : List Char) : lineSkipped ('[' :: r) = false := by
  have h1 : firstCharIn ('[' :: r) COMMENT_CHARS = false := rfl
  have h3 : ('[' :: r).all isRustWhitespace = false :=
    not_all_ws_of_mem (List.mem_cons_self '[' r) (by decide)
  simp [lineSkipped, h1, h3]

theorem processLine_bracket_none (config : IniMode) (st : ParseState) (ln : Nat)
    {r : List Char} (h : splitFirst ']' r = none) :
    processLine config st ln ('[' :: r) = .error (.BrokenSectionTitle ln) := by
  simp [processLine, lineSkipped_bracket, lineStartsWithBracket, h]

theorem processLine_no_section (config : IniMode) (st : ParseState) (ln : Nat)
    {line : List Char} (hskip : lineSkipped line = false)
    (hbr : lineStartsWithBracket line = false) (hcur : st.currentSection = none) :
    processLine config st ln line = .error (.ExpectedSectionTitle ln) := by
  simp [processLine, hskip, hbr, hcur]

/-- A key/value-shaped line: its first char is not `[` and not a comment
delimiter (the line classification of step 2 of the algorithm falls through
to the key/value rule on it). -/
def isKvShape (line : List Char) : Bool :=
  match line with
  | [] => false
  | c :: _ => !(c == '[') && !(c == ';') && !(c == '#')

theorem kv_line_not_skipped {k v : List Char}
    (hshape : isKvShape (k ++ '=' :: v) = true) :
    lineSkipped (k ++ '=' :: v) = false := by
  have hmem : '=' ∈ k ++ '=' :: v := List.mem_append_right k (List.mem_cons_self '=' v)
  have h3 : (k ++ '=' :: v).all isRustWhitespace = false :=
    not_all_ws_of_mem hmem (by decide)
  cases k with
  | nil =>
    have h1 : firstCharIn ('=' :: v) COMMENT_CHARS = false := rfl
    simpa [lineSkipped, h1] using h3
  | cons c cs =>
    simp only [isKvShape, List.cons_append, Bool.and_eq_true, Bool.not_eq_true'] at hshape
    have hsemi : c ≠ ';' := by simpa using hshape.1.2
    have hhash : c ≠ '#' := by simpa using hshape.2
    have h1 : firstCharIn (c :: (cs ++ '=' :: v)) COMMENT_CHARS = false := by
      simp [firstCharIn, COMMENT_CHARS, hsemi, hhash]
    simp only [List.cons_append] at h3
    simp [lineSkipped, h1, h3]

theorem kv_line_not_bracket {k v : List Char}
    (hshape : isKvShape (k ++ '=' :: v) = true) :
    lineStartsWithBracket (k ++ '=' :: v) = false := by
  cases k with
  | nil => rfl
  | cons c cs =>
    simp only [isKvShape, List.cons_append, Bool.and_eq_true, Bool.not_eq_true'] at hshape
    have hbr : c ≠ '[' := by simpa using hshape.1.1
    simp [lineStartsWithBracket, hbr]

/-- The key/value rule of `processLine` on a line whose first `=` separates
`k` from `v`, when a current section exists and is present in the document:
the stored key and value are `effKey`/`effValue` of the split pieces, and a
duplicate (trimmed) key is reported with the section name and that key. -/
theorem processLine_kv (config : IniMode) (st : ParseState) (ln : Nat)
    {sname k v : List Char} {s : IniSection}
    (hcur : st.currentSection = some sname)
    (hk : k.all (fun c => !(c == '=')) = true)
    (hshape : isKvShape (k ++ '=' :: v) = true)
    (hs : lookupList st.ini.sections sname = some s) :
    processLine config st ln (k ++ '=' :: v) =
      if containsK s.values (effKey config k) then
        .error (.DuplicateSectionKey ln sname (effKey config k))
      else
        .ok ⟨⟨insertIntoSection st.ini.sections sname (effKey config k) (effValue config v)⟩,
          st.currentSection⟩ := by
  simp [processLine, kv_line_not_skipped hshape, kv_line_not_bracket hshape, hcur,
    splitFirst_append_of_absent '=' k v hk, hs]

/-! ### Claim C4 -/

/-- C4: when every line before `line` is skipped and `line` itself is neither
skipped nor a section header, parsing fails with `ExpectedSectionTitle`
carrying that line's 0-based index, in either mode, whether or not the line
contains an `=`. -/
theorem expected_section_title_first (s : String) (config : IniMode)
    (pre rest : List (List Char)) (line : List Char)
    (hsplit : rustLines s.toList = pre ++ line :: rest)
    (hpre : ∀ l ∈ pre, lineSkipped l = true)
    (hline : lineSkipped line = false)
    (hbr : lineStartsWithBracket line = false) :
    Ini.parse s config = .error (.ExpectedSectionTitle pre.length) := by
  rw [parse_eq_parse_simple]
  unfold Ini.parse_simple
  rw [hsplit, numberFrom_append, parseLines_append,
    parseLines_all_skipped config 0 pre initState hpre]
  simp only [numberFrom, parseLines]
  rw [processLine_no_section config initState (0 + pre.length) hline hbr rfl]
  simp

/-- C4 witness: the input `k=v` (first line is a key/value line) fails with
`ExpectedSectionTitle` at index 0. -/
theorem expected_section_title_first_witness :
    lineSkipped (("k=v").toList) = false ∧
    Ini.parse "k=v" .SimpleTrimmed = .error (.ExpectedSectionTitle 0) :=
  ⟨by decide, expected_section_title_first "k=v" .SimpleTrimmed [] [] (("k=v").toList)
    (by decide) (by simp) (by decide) (by decide)⟩

/-! ### Claim C5 -/

/-- C5: a line starting with `[` is never skipped; if it has no `]` the parse
step fails with `BrokenSectionTitle` at that line's number; otherwise the
section name is exactly the chars strictly between `[` and the first `]`, in
either mode, with trailing content after `]` ignored — both on success (the
name inserted and made current) and in the `DuplicateSection` error. -/
theorem section_header_rule (config : IniMode) (st : ParseState) (ln : Nat) :
    (∀ r : List Char, lineSkipped ('[' :: r) = false) ∧
    (∀ r : List Char, splitFirst ']' r = none →
      processLine config st ln ('[' :: r) = .error (.BrokenSectionTitle ln)) ∧
    (∀ title junk : List Char, title.all (fun c => !(c == ']')) = true →
      containsK st.ini.sections title = false →
      processLine config st ln ('[' :: (title ++ ']' :: junk)) =
        .ok ⟨⟨st.ini.sections ++ [(title, ⟨[]⟩)]⟩, some title⟩) ∧
    (∀ title junk : List Char, title.all (fun c => !(c == ']')) = true →
      containsK st.ini.sections title = true →
      processLine config st ln ('[' :: (title ++ ']' :: junk)) =
        .error (.DuplicateSection ln title)) := by
  refine ⟨lineSkipped_bracket, fun r h => processLine_bracket_none config st ln h, ?_, ?_⟩
  · intro title junk htitle hcont
    simp [processLine, lineSkipped_bracket, lineStartsWithBracket,
      splitFirst_append_of_absent ']' title junk htitle, hcont]
  · intro title junk htitle hcont
    simp [processLine, lineSkipped_bracket, lineStartsWithBracket,
      splitFirst_append_of_absent ']' title junk htitle, hcont]

/-- C5 witness: the header rule applied at concrete inputs — `[Aha` is a
broken title, `[My Section]tail` inserts exactly `My Section` ignoring
`tail`. -/
theorem section_header_rule_witness :
    processLine .Simple initState 0 (("[Aha").toList) = .error (.BrokenSectionTitle 0) ∧
    processLine .Simple initState 0 (("[My Section]tail").toList) =
      .ok ⟨⟨[(("My Section").toList, ⟨[]⟩)]⟩, some (("My Section").toList)⟩ :=
  ⟨(section_header_rule .Simple initState 0).2.1 (("Aha").toList) (by decide),
   (section_header_rule .Simple initState 0).2.2.1 (("My Section").toList) (("tail").toList)
     (by decide) (by decide)⟩

/-! ### Claim C6 -/

/-- C6: for a key/value line (a current section exists), a line with no `=`
fails with `MissingEquals` at that line's number; a line with an `=` is split
at the first `=` — the key is everything before it (so keys cannot contain
`=`) and the value everything after it (so values may contain `=` freely) —
and the line `a=b=c` stores key `a` and value `b=c` in both modes. -/
theorem first_equals_split (config : IniMode) (st : ParseState) (ln : Nat)
    (sname : List Char) (hcur : st.currentSection = some sname) :
    (∀ line : List Char, lineSkipped line = false → lineStartsWithBracket line = false →
      splitFirst '=' line = none →
      processLine config st ln line = .error (.MissingEquals ln)) ∧
    (∀ k v : List Char, ∀ s : IniSection, k.all (fun c => !(c == '=')) = true →
      isKvShape (k ++ '=' :: v) = true →
      lookupList st.ini.sections sname = some s →
      processLine config st ln (k ++ '=' :: v) =
        if containsK s.values (effKey config k) then
          .error (.DuplicateSectionKey ln sname (effKey config k))
        else
          .ok ⟨⟨insertIntoSection st.ini.sections sname (effKey config k) (effValue config v)⟩,
            st.currentSection⟩) ∧
    (Ini.parse "[S]\na=b=c" .Simple =
        .ok ⟨[(("S").toList, ⟨[(("a").toList, ("b=c").toList)]⟩)]⟩ ∧
      Ini.parse "[S]\na=b=c" .SimpleTrimmed =
        .ok ⟨[(("S").toList, ⟨[(("a").toList, ("b=c").toList)]⟩)]⟩) := by
  refine ⟨?_, ?_, by decide, by decide⟩
  · intro line hskip hbr hsp
    simp [processLine, hskip, hbr, hcur, hsp]
  · intro k v s hk hshape hs
    exact processLine_kv config st ln hcur hk hshape hs

/-- C6 witness: the missing-equals and first-equals parts applied at concrete
inputs. -/
theorem first_equals_split_witness :
    processLine .Simple ⟨⟨[(("S").toList, ⟨[]⟩)]⟩, some (("S").toList)⟩ 1
      (("noequals").toList) = .error (.MissingEquals 1) ∧
    processLine .Simple ⟨⟨[(("S").toList, ⟨[]⟩)]⟩, some (("S").toList)⟩ 1
      ((("a").toList) ++ '=' :: (("b=c").toList)) =
      .ok ⟨⟨[(("S").toList, ⟨[(("a").toList, ("b=c").toList)]⟩)]⟩, some (("S").toList)⟩ :=
  ⟨(first_equals_split .Simple ⟨⟨[(("S").toList, ⟨[]⟩)]⟩, some (("S").toList)⟩ 1
      (("S").toList) rfl).1 (("noequals").toList) (by decide) (by decide) (by decide),
   by
    have h := (first_equals_split .Simple ⟨⟨[(("S").toList, ⟨[]⟩)]⟩, some (("S").toList)⟩ 1
      (("S").toList) rfl).2.1 (("a").toList) (("b=c").toList) ⟨[]⟩
      (by decide) (by decide) (by decide)
    simpa using h⟩

/-! ### Claim C8 -/

/-- C8: a line that is empty, all-whitespace, or whose very first character
is `;` or `#` is skipped with no state change; a line with leading whitespace
before the delimiter is not skipped and is handled by the key/value rule (it
is not a header, and before any header it raises `ExpectedSectionTitle`); the
concrete line `  ; x` inside a section fails with `MissingEquals`. -/
theorem skip_rule (config : IniMode) (st : ParseState) (ln : Nat) :
    (∀ line : List Char,
      (line = [] ∨ line.all isRustWhitespace = true ∨
        (∃ c r, line = c :: r ∧ (c = ';' ∨ c = '#'))) →
      processLine config st ln line = .ok st) ∧
    (∀ (w : List Char) (c : Char) (r : List Char), w ≠ [] →
      w.all isRustWhitespace = true → (c = ';' ∨ c = '#') →
      lineSkipped (w ++ c :: r) = false ∧
      lineStartsWithBracket (w ++ c :: r) = false ∧
      (st.currentSection = none →
        processLine config st ln (w ++ c :: r) = .error (.ExpectedSectionTitle ln))) ∧
    Ini.parse "[A]\n  ; x" .Simple = .error (.MissingEquals 1) := by
  refine ⟨?_, ?_, by decide⟩
  · intro line hline
    apply processLine_skipped
    rcases hline with h | h | ⟨c, r, hline, hc⟩
    · subst h; decide
    · simp [lineSkipped, h]
    · subst hline
      have : firstCharIn (c :: r) COMMENT_CHARS = true := by
        rcases hc with hc | hc <;> subst hc <;> rfl
      simp [lineSkipped, this]
  · intro w c r hw hws hc
    obtain ⟨cw, wrest, rfl⟩ : ∃ cw wrest, w = cw :: wrest := by
      cases w with
      | nil => exact absurd rfl hw
      | cons cw wrest => exact ⟨cw, wrest, rfl⟩
    have hcw : isRustWhitespace cw = true := by
      have := hws
      simp only [List.all_cons, Bool.and_eq_true] at this
      exact this.1
    have hcns : isRustWhitespace c = false := by
      rcases hc with hc | hc <;> subst hc <;> decide
    have hskip : lineSkipped ((cw :: wrest) ++ c :: r) = false := by
      have h1 : firstCharIn (cw :: (wrest ++ c :: r)) COMMENT_CHARS = false := by
        simp [firstCharIn, COMMENT_CHARS, ws_ne_semi hcw, ws_ne_hash hcw]
      have h3 : (cw :: (wrest ++ c :: r)).all isRustWhitespace = false := by
        apply not_all_ws_of_mem (c := c) _ hcns
        exact List.mem_cons_of_mem cw (List.mem_append_right wrest (List.mem_cons_self c r))
      simp only [List.cons_append]
      simp [lineSkipped, h1, h3]
    have hbr : lineStartsWithBracket ((cw :: wrest) ++ c :: r) = false := by
      simp only [List.cons_append]
      simp [lineStartsWithBracket, ws_ne_bracket hcw]
    exact ⟨hskip, hbr, fun hcur => processLine_no_section config st ln hskip hbr hcur⟩

/-- C8 witness: the skip rule applied to a comment line, a whitespace line,
and the non-skipped line `  ; x`. -/
theorem skip_rule_witness :
    processLine .Simple initState 0 (("; note").toList) = .ok initState ∧
    processLine .Simple initState 0 (("  ").toList) = .ok initState ∧
    lineSkipped (("  ; x").toList) = false :=
  ⟨(skip_rule .Simple initState 0).1 (("; note").toList)
      (Or.inr (Or.inr ⟨';', (" note").toList, rfl, Or.inl rfl⟩)),
   (skip_rule .Simple initState 0).1 (("  ").toList) (Or.inr (Or.inl (by decide))),
   by
    have h := ((skip_rule .Simple initState 0).2.1 (("  ").toList) ';' ((" x").toList)
      (by decide) (by decide) (Or.inl rfl)).1
    simpa using h⟩

/-! ### Claim C3 -/

/-- C3 counterexample: `[A]`, `x`, `[A]` contains two section-header lines
with the same name, but parsing fails with `MissingEquals` at the middle
line, not with `DuplicateSection` at the second header — an earlier error
preempts the duplicate check. -/
theorem duplicate_section_preempted_counterexample :
    Ini.parse "[A]\nx\n[A]" .Simple = .error (.MissingEquals 1) ∧
    Ini.parse "[A]\nx\n[A]" .Simple ≠
      .error (.DuplicateSection 2 (("A").toList)) := by
  refine ⟨by decide, by decide⟩

/-- C3 (amended): provided every earlier line parses without error, a second
header line whose name (matched by exact text equality) is already a section
fails with `DuplicateSection` carrying that header's line number and the
name; a key/value line whose (possibly trimmed) key is already present in
the current section fails with `DuplicateSectionKey` carrying that line's
number, the section name and the key; and the same key in two different
sections is not an error. -/
theorem duplicate_detection :
    (∀ (config : IniMode) (pre : List (Nat × List Char)) (ln : Nat)
        (title junk : List Char) (rest : List (Nat × List Char)) (st : ParseState),
      parseLines config pre initState = .ok st →
      title.all (fun c => !(c == ']')) = true →
      containsK st.ini.sections title = true →
      parseLines config (pre ++ (ln, '[' :: (title ++ ']' :: junk)) :: rest) initState =
        .error (.DuplicateSection ln title)) ∧
    (∀ (config : IniMode) (pre : List (Nat × List Char)) (ln : Nat)
        (k0 v0 : List Char) (rest : List (Nat × List Char)) (st : ParseState)
        (sname : List Char) (s : IniSection),
      parseLines config pre initState = .ok st →
      st.currentSection = some sname →
      lookupList st.ini.sections sname = some s →
      k0.all (fun c => !(c == '=')) = true →
      isKvShape (k0 ++ '=' :: v0) = true →
      containsK s.values (effKey config k0) = true →
      parseLines config (pre ++ (ln, k0 ++ '=' :: v0) :: rest) initState =
        .error (.DuplicateSectionKey ln sname (effKey config k0))) ∧
    Ini.parse "[A]\nk=1\n[B]\nk=2" .Simple =
      .ok ⟨[(("A").toList, ⟨[(("k").toList, ("1").toList)]⟩),
            (("B").toList, ⟨[(("k").toList, ("2").toList)]⟩)]⟩ ∧
    Ini.parse "[A]\nk=1\n[B]\nk=2" .SimpleTrimmed =
      .ok ⟨[(("A").toList, ⟨[(("k").toList, ("1").toList)]⟩),
            (("B").toList, ⟨[(("k").toList, ("2").toList)]⟩)]⟩ := by
  refine ⟨?_, ?_, by decide, by decide⟩
  · intro config pre ln title junk rest st hpre htitle hcont
    rw [parseLines_append, hpre]
    show parseLines config ((ln, '[' :: (title ++ ']' :: junk)) :: rest) st = _
    have hd : processLine config st ln ('[' :: (title ++ ']' :: junk)) =
        .error (.DuplicateSection ln title) := by
      simp [processLine, lineSkipped_bracket, lineStartsWithBracket,
        splitFirst_append_of_absent ']' title junk htitle, hcont]
    simp only [parseLines]
    rw [hd]
  · intro config pre ln k0 v0 rest st sname s hpre hcur hs hk hshape hdup
    rw [parseLines_append, hpre]
    show parseLines config ((ln, k0 ++ '=' :: v0) :: rest) st = _
    have hd : processLine config st ln (k0 ++ '=' :: v0) =
        .error (.DuplicateSectionKey ln sname (effKey config k0)) := by
      rw [processLine_kv config st ln hcur hk hshape hs, if_pos]
      exact hdup
    simp only [parseLines]
    rw [hd]

/-- C3 witness: the duplicate-section and duplicate-key parts applied after a
concretely parsed prefix. -/
theorem duplicate_detection_witness :
    parseLines .Simple
      ([(0, ("[A]").toList)] ++ (1, '[' :: (("A").toList ++ ']' :: [])) :: []) initState =
      .error (.DuplicateSection 1 (("A").toList)) ∧
    parseLines .Simple
      ([(0, ("[A]").toList), (1, ("k=1").toList)] ++
        (2, ("k").toList ++ '=' :: ("2").toList) :: []) initState =
      .error (.DuplicateSectionKey 2 (("A").toList) (("k").toList)) :=
  ⟨(duplicate_detection).1 .Simple [(0, ("[A]").toList)] 1 (("A").toList) [] []
      ⟨⟨[(("A").toList, ⟨[]⟩)]⟩, some (("A").toList)⟩ (by decide) (by decide) (by decide),
   (duplicate_detection).2.1 .Simple [(0, ("[A]").toList), (1, ("k=1").toList)] 2
      (("k").toList) (("2").toList) []
      ⟨⟨[(("A").toList, ⟨[(("k").toList, ("1").toList)]⟩)]⟩, some (("A").toList)⟩
      (("A").toList) ⟨[(("k").toList, ("1").toList)]⟩
      (by decide) (by decide) (by decide) (by decide) (by decide) (by decide)⟩

/-! ### Claim C9 -/

/-- Well-formedness of a document: section names are pairwise distinct, and
within every section the keys are pairwise distinct. -/
def sectionsWf (ini : Ini) : Prop :=
  (ini.sections.map Prod.fst).Nodup ∧
  ∀ p ∈ ini.sections, ((p.2).values.map Prod.fst).Nodup

instance (ini : Ini) : Decidable (sectionsWf ini) := by
  unfold sectionsWf
  infer_instance

theorem not_mem_of_containsK_false {m : List (List Char × α)} {k : List Char}
    (h : containsK m k = false) : k ∉ m.map Prod.fst := by
  intro hmem
  induction m with
  | nil => simp at hmem
  | cons p rest ih =>
    obtain ⟨a, b⟩ := p
    simp only [List.map_cons, List.mem_cons] at hmem
    by_cases hak : a = k
    · subst hak
      simp [containsK, lookupList] at h
    · have h2 : containsK rest k = false := by
        simpa [containsK, lookupList, hak] using h
      rcases hmem with hm | hm
      · exact hak hm.symm
      · exact ih h2 hm

theorem map_fst_insertIntoSection (m : List (List Char × IniSection))
    (n k v : List Char) :
    (insertIntoSection m n k v).map Prod.fst = m.map Prod.fst := by
  induction m with
  | nil => rfl
  | cons p rest ih =>
    obtain ⟨a, b⟩ := p
    by_cases h : a = n
    · simp [insertIntoSection, h]
    · simp [insertIntoSection, h, ih]

theorem values_nodup_insertIntoSection :
    ∀ (m : List (List Char × IniSection)) (n k v : List Char) (s : IniSection),
      (∀ p ∈ m, ((p.2).values.map Prod.fst).Nodup) →
      lookupList m n = some s →
      containsK s.values k = false →
      ∀ p ∈ insertIntoSection m n k v, ((p.2).values.map Prod.fst).Nodup := by
  intro m
  induction m with
  | nil =>
    intro n k v s hall hs hk
    simp [lookupList] at hs
  | cons q rest ih =>
    intro n k v s hall hs hk p hp
    obtain ⟨a, b⟩ := q
    by_cases h : a = n
    · subst h
      have hsb : b = s := by simpa [lookupList] using hs
      subst hsb
      have hins : insertIntoSection ((a, b) :: rest) a k v =
          (a, ⟨b.values ++ [(k, v)]⟩) :: rest := by
        simp [insertIntoSection]
      rw [hins] at hp
      rcases List.mem_cons.mp hp with hp | hp
      · subst hp
        simp only [List.map_append]
        have h1 : ((b.values.map Prod.fst)).Nodup := hall (a, b) (List.mem_cons_self _ _)
        have h2 : k ∉ b.values.map Prod.fst := not_mem_of_containsK_false hk
        simp [List.nodup_append, h1, h2]
      · exact hall p (List.mem_cons_of_mem _ hp)
    · have hins : insertIntoSection ((a, b) :: rest) n k v =
          (a, b) :: insertIntoSection rest n k v := by
        simp [insertIntoSection, h]
      rw [hins] at hp
      rcases List.mem_cons.mp hp with hp | hp
      · subst hp
        exact hall (a, b) (List.mem_cons_self _ _)
      · have hs2 : lookupList rest n = some s := by simpa [lookupList, h] using hs
        exact ih n k v s (fun q hq => hall q (List.mem_cons_of_mem _ hq)) hs2 hk p hp

theorem processLine_preserves_wf {config : IniMode} {st : ParseState} {ln : Nat}
    {line : List Char} {st2 : ParseState}
    (hwf : sectionsWf st.ini) (h : processLine config st ln line = .ok st2) :
    sectionsWf st2.ini := by
  unfold processLine at h
  by_cases hskip : lineSkipped line = true
  · rw [if_pos hskip] at h
    injection h with h2
    subst h2
    exact hwf
  · rw [if_neg hskip] at h
    by_cases hbr : lineStartsWithBracket line = true
    · rw [if_pos hbr] at h
      cases hsp : splitFirst ']' (line.drop 1) with
      | none =>
        rw [hsp] at h
        cases h
      | some p =>
        obtain ⟨title, junk⟩ := p
        simp only [hsp] at h
        by_cases hcont : containsK st.ini.sections title = true
        · rw [if_pos hcont] at h
          cases h
        · rw [if_neg hcont] at h
          injection h with h2
          subst h2
          have hcf : containsK st.ini.sections title = false := by
            simpa using hcont
          refine ⟨?_, ?_⟩
          · simp only [List.map_append, List.map_cons, List.map_nil]
            simp [List.nodup_append, hwf.1, not_mem_of_containsK_false hcf]
          · intro p hp
            simp only [List.mem_append, List.mem_cons, List.not_mem_nil, or_false] at hp
            rcases hp with hp | hp
            · exact hwf.2 p hp
            · subst hp
              simp
    · rw [if_neg hbr] at h
      cases hcur : st.currentSection with
      | none =>
        simp [hcur] at h
      | some sname =>
        simp only [hcur] at h
        cases hsp : splitFirst '=' line with
        | none =>
          simp [hsp] at h
        | some p =>
          obtain ⟨k0, v0⟩ := p
          simp only [hsp] at h
          cases hs : lookupList st.ini.sections sname with
          | none =>
            simp only [hs] at h
            injection h with h2
            subst h2
            exact hwf
          | some s =>
            simp only [hs] at h
            by_cases hdup : containsK s.values (effKey config k0) = true
            · rw [if_pos hdup] at h
              cases h
            · rw [if_neg hdup] at h
              injection h with h2
              subst h2
              refine ⟨?_, ?_⟩
              · rw [map_fst_insertIntoSection]
                exact hwf.1
              · exact values_nodup_insertIntoSection _ _ _ _ _ hwf.2 hs
                  (by simpa using hdup)

theorem parseLines_preserves_wf (config : IniMode) :
    ∀ (ls : List (Nat × List Char)) (st st2 : ParseState),
      sectionsWf st.ini → parseLines config ls st = .ok st2 → sectionsWf st2.ini := by
  intro ls
  induction ls with
  | nil =>
    intro st st2 hwf h
    injection h with h2
    subst h2
    exact hwf
  | cons x rest ih =>
    intro st st2 hwf h
    obtain ⟨ln, line⟩ := x
    simp only [parseLines] at h
    cases hp : processLine config st ln line with
    | error e =>
      rw [hp] at h
      cases h
    | ok stm =>
      rw [hp] at h
      exact ih stm st2 (processLine_preserves_wf hwf hp) h

/-- C9: every document returned by a successful parse, in either mode,
contains no two sections with the same name and no section with two entries
under the same key. -/
theorem parse_result_unique_keys (s : String) (config : IniMode) (ini : Ini)
    (h : Ini.parse s config = .ok ini) : sectionsWf ini := by
  rw [parse_eq_parse_simple] at h
  unfold Ini.parse_simple at h
  cases hp : parseLines config (numberFrom 0 (rustLines s.toList)) initState with
  | error e =>
    rw [hp] at h
    cases h
  | ok st =>
    rw [hp] at h
    injection h with h2
    subst h2
    refine parseLines_preserves_wf config _ initState st ?_ hp
    refine ⟨List.nodup_nil, ?_⟩
    intro p hp2
    simp [initState] at hp2

/-- C9 witness: the uniqueness invariant for a concretely parsed document. -/
theorem parse_result_unique_keys_witness :
    Ini.parse "[A]\nk=v\n[B]\nk=w" .Simple =
      .ok (resultIni (Ini.parse "[A]\nk=v\n[B]\nk=w" .Simple)) ∧
    sectionsWf (resultIni (Ini.parse "[A]\nk=v\n[B]\nk=w" .Simple)) :=
  ⟨by decide, parse_result_unique_keys "[A]\nk=v\n[B]\nk=w" .Simple _ (by decide)⟩

/-! ### Claim C2 -/

/-- A line is `kvGood` when, if it is handled by the key/value rule and has an
`=`, its raw key has no trailing whitespace and its raw value no leading
whitespace — i.e. trimming would change nothing on it. -/
def kvGood (line : List Char) : Bool :=
  if lineSkipped line then true
  else if lineStartsWithBracket line then true
  else
    match splitFirst '=' line with
    | none => true
    | some (k, v) => (trimEndList k == k) && (trimStartList v == v)

/-- An input where no key/value line has whitespace adjacent to `=`. -/
def goodInput (s : String) : Bool :=
  (rustLines s.toList).all kvGood

/-- Line-wise whitespace padding: a line is either unchanged, or it is a
key/value-shaped line `k=v` (first `=` is the delimiter: `k` contains no `=`;
the first char is not `[`, `;` or `#`) into which whitespace `w1` is inserted
before the `=` and whitespace `w2` after it. -/
inductive PaddedLine : List Char → List Char → Prop where
  | same (l : List Char) : PaddedLine l l
  | pad (k w1 w2 v : List Char)
      (hk : k.all (fun c => !(c == '=')) = true)
      (hw1 : w1.all isRustWhitespace = true)
      (hw2 : w2.all isRustWhitespace = true)
      (hshape : isKvShape (k ++ '=' :: v) = true) :
      PaddedLine (k ++ '=' :: v) (k ++ w1 ++ '=' :: (w2 ++ v))

theorem processLine_mode_eq {line : List Char} (hg : kvGood line = true)
    (st : ParseState) (ln : Nat) :
    processLine .SimpleTrimmed st ln line = processLine .Simple st ln line := by
  by_cases hskip : lineSkipped line = true
  · rw [processLine_skipped _ _ _ hskip, processLine_skipped _ _ _ hskip]
  · have hskip2 : lineSkipped line = false := by simpa using hskip
    by_cases hbr : lineStartsWithBracket line = true
    · simp [processLine, hskip2, hbr]
    · have hbr2 : lineStartsWithBracket line = false := by simpa using hbr
      unfold kvGood at hg
      rw [if_neg hskip, if_neg hbr] at hg
      cases hcur : st.currentSection with
      | none => simp [processLine, hskip2, hbr2, hcur]
      | some sname =>
        cases hsp : splitFirst '=' line with
        | none => simp [processLine, hskip2, hbr2, hcur, hsp]
        | some p =>
          obtain ⟨k0, v0⟩ := p
          rw [hsp] at hg
          simp only [Bool.and_eq_true, beq_iff_eq] at hg
          have hek : effKey .SimpleTrimmed k0 = effKey .Simple k0 := by
            simp [effKey, hg.1]
          have hev : effValue .SimpleTrimmed v0 = effValue .Simple v0 := by
            simp [effValue, hg.2]
          simp [processLine, hskip2, hbr2, hcur, hsp, hek, hev]

theorem processLine_padded {l l2 : List Char} (hg : kvGood l = true)
    (hp : PaddedLine l l2) (st : ParseState) (ln : Nat) :
    processLine .SimpleTrimmed st ln l2 = processLine .Simple st ln l := by
  cases hp with
  | same l => exact processLine_mode_eq hg st ln
  | pad k w1 w2 v hk hw1 hw2 hshape =>
    have hskip : lineSkipped (k ++ '=' :: v) = false := kv_line_not_skipped hshape
    have hbr : lineStartsWithBracket (k ++ '=' :: v) = false := kv_line_not_bracket hshape
    have hshape2 : isKvShape ((k ++ w1) ++ '=' :: (w2 ++ v)) = true := by
      cases k with
      | nil =>
        cases w1 with
        | nil => rfl
        | cons cw wrest =>
          have hcw : isRustWhitespace cw = true := by
            simp only [List.all_cons, Bool.and_eq_true] at hw1
            exact hw1.1
          simp [isKvShape, ws_ne_semi hcw, ws_ne_hash hcw, ws_ne_bracket hcw]
      | cons c cs =>
        simp only [isKvShape, List.cons_append, List.append_assoc] at hshape ⊢
        exact hshape
    have hk2 : (k ++ w1).all (fun c => !(c == '=')) = true := by
      rw [List.all_append]
      simp only [Bool.and_eq_true]
      refine ⟨hk, ?_⟩
      rw [List.all_eq_true]
      intro c hc
      have hcw : isRustWhitespace c = true := by
        rw [List.all_eq_true] at hw1
        exact hw1 c hc
      simp [ws_ne_equals hcw]
    have hskip2 : lineSkipped ((k ++ w1) ++ '=' :: (w2 ++ v)) = false :=
      kv_line_not_skipped hshape2
    have hbr2 : lineStartsWithBracket ((k ++ w1) ++ '=' :: (w2 ++ v)) = false :=
      kv_line_not_bracket hshape2
    have hspl : splitFirst '=' (k ++ '=' :: v) = some (k, v) :=
      splitFirst_append_of_absent '=' k v hk
    have hspl2 : splitFirst '=' ((k ++ w1) ++ '=' :: (w2 ++ v)) = some (k ++ w1, w2 ++ v) :=
      splitFirst_append_of_absent '=' (k ++ w1) (w2 ++ v) hk2
    have hgkv : trimEndList k = k ∧ trimStartList v = v := by
      unfold kvGood at hg
      rw [if_neg (by simp [hskip]), if_neg (by simp [hbr]), hspl] at hg
      simpa using hg
    have hek : effKey .SimpleTrimmed (k ++ w1) = effKey .Simple k := by
      simp [effKey, trimEndList_append_ws k w1 hw1, hgkv.1]
    have hev : effValue .SimpleTrimmed (w2 ++ v) = effValue .Simple v := by
      simp [effValue, trimStartList_ws_append w2 v hw2, hgkv.2]
    have hskip3 : lineSkipped (k ++ (w1 ++ '=' :: (w2 ++ v))) = false := by
      rw [← List.append_assoc]
      exact hskip2
    have hbr3 : lineStartsWithBracket (k ++ (w1 ++ '=' :: (w2 ++ v))) = false := by
      rw [← List.append_assoc]
      exact hbr2
    have hspl3 : splitFirst '=' (k ++ (w1 ++ '=' :: (w2 ++ v))) = some (k ++ w1, w2 ++ v) := by
      rw [← List.append_assoc]
      exact hspl2
    show processLine .SimpleTrimmed st ln ((k ++ w1) ++ '=' :: (w2 ++ v)) =
      processLine .Simple st ln (k ++ '=' :: v)
    cases hcur : st.currentSection with
    | none => simp [processLine, hskip, hbr, hskip3, hbr3, hcur]
    | some sname =>
      simp [processLine, hskip, hbr, hskip3, hbr3, hcur, hspl, hspl3, hek, hev]

theorem forallTwo_padded_refl (ls : List (List Char)) : List.Forall₂ PaddedLine ls ls := by
  induction ls with
  | nil => exact List.Forall₂.nil
  | cons a rest ih => exact List.Forall₂.cons (PaddedLine.same a) ih

theorem parseLines_padded {ls ls2 : List (List Char)}
    (hp : List.Forall₂ PaddedLine ls ls2) :
    (∀ l ∈ ls, kvGood l = true) →
    ∀ (k : Nat) (st : ParseState),
      parseLines .SimpleTrimmed (numberFrom k ls2) st =
        parseLines .Simple (numberFrom k ls) st := by
  induction hp with
  | nil =>
    intro _ k st
    rfl
  | cons hpl hrest ih =>
    intro hg k st
    simp only [numberFrom, parseLines]
    rw [processLine_padded (hg _ (List.mem_cons_self _ _)) hpl st k]
    cases hpr : processLine .Simple st k _ with
    | error e => rfl
    | ok st2 => exact ih (fun l hl => hg l (List.mem_cons_of_mem _ hl)) (k + 1) st2

/-- C2: for an input `s` in which no key/value line carries whitespace
adjacent to its `=` delimiter, parsing under `Simple` and `SimpleTrimmed`
yields identical results; and a whitespace-padded variant `t` of `s`
(whitespace inserted around the `=` of key/value lines) parsed under
`SimpleTrimmed` equals `s` parsed under `Simple`. -/
theorem mode_equivalence (s t : String) (hg : goodInput s = true)
    (hp : List.Forall₂ PaddedLine (rustLines s.toList) (rustLines t.toList)) :
    Ini.parse s .Simple = Ini.parse s .SimpleTrimmed ∧
    Ini.parse t .SimpleTrimmed = Ini.parse s .Simple := by
  have hgl : ∀ l ∈ rustLines s.toList, kvGood l = true := by
    unfold goodInput at hg
    rw [List.all_eq_true] at hg
    exact hg
  constructor
  · rw [parse_eq_parse_simple, parse_eq_parse_simple]
    unfold Ini.parse_simple
    rw [parseLines_padded (forallTwo_padded_refl _) hgl 0 initState]
  · rw [parse_eq_parse_simple, parse_eq_parse_simple]
    unfold Ini.parse_simple
    rw [parseLines_padded hp hgl 0 initState]

/-- C2 witness: the mode-equivalence theorem applied to `[A]` + `k=v` and its
padded variant `[A]` + `k = v`. -/
theorem mode_equivalence_witness :
    goodInput "[A]\nk=v" = true ∧
    Ini.parse "[A]\nk = v" .SimpleTrimmed = Ini.parse "[A]\nk=v" .Simple := by
  refine ⟨by decide, ?_⟩
  have hp : List.Forall₂ PaddedLine (rustLines (("[A]\nk=v").toList))
      (rustLines (("[A]\nk = v").toList)) := by
    have e1 : rustLines (("[A]\nk=v").toList) =
        [("[A]").toList, ("k").toList ++ '=' :: ("v").toList] := by decide
    have e2 : rustLines (("[A]\nk = v").toList) =
        [("[A]").toList, ("k").toList ++ (" ").toList ++ '=' :: ((" ").toList ++ ("v").toList)] := by
      decide
    rw [e1, e2]
    exact List.Forall₂.cons (PaddedLine.same _)
      (List.Forall₂.cons
        (PaddedLine.pad _ _ _ _ (by decide) (by decide) (by decide) (by decide))
        List.Forall₂.nil)
  exact (mode_equivalence "[A]\nk=v" "[A]\nk = v" (by decide) hp).2

/-! ### The `.unwrap()` of `get_mut` never panics

`processLine` models the `ini.sections.get_mut(section).unwrap()` of the
source with a `lookupList … = none` fallback branch.  The following
invariant shows that branch is unreachable in any state reachable from
`initState`: whenever a current section is set, it is a key of the document
being built. -/

def currentSectionInv (st : ParseState) : Prop :=
  ∀ sname, st.currentSection = some sname → containsK st.ini.sections sname = true

theorem containsK_iff_mem {m : List (List Char × α)} {k : List Char} :
    containsK m k = true ↔ k ∈ m.map Prod.fst := by
  induction m with
  | nil => simp [containsK, lookupList]
  | cons p rest ih =>
    obtain ⟨a, b⟩ := p
    by_cases h : a = k
    · subst h
      have hl : lookupList ((a, b) :: rest) a = some b := by
        simp [lookupList]
      constructor
      · intro _
        rw [List.map_cons]
        exact List.mem_cons_self _ _
      · intro _
        show (lookupList ((a, b) :: rest) a).isSome = true
        rw [hl]
        rfl
    · simp only [containsK, lookupList, if_neg h, List.map_cons, List.mem_cons]
      rw [← containsK]
      constructor
      · intro hc
        exact Or.inr (ih.mp hc)
      · intro hc
        rcases hc with hc | hc
        · exact absurd hc.symm h
        · exact ih.mpr hc

theorem processLine_preserves_inv {config : IniMode} {st : ParseState} {ln : Nat}
    {line : List Char} {st2 : ParseState}
    (hinv : currentSectionInv st) (h : processLine config st ln line = .ok st2) :
    currentSectionInv st2 := by
  unfold processLine at h
  by_cases hskip : lineSkipped line = true
  · rw [if_pos hskip] at h
    injection h with h2
    subst h2
    exact hinv
  · rw [if_neg hskip] at h
    by_cases hbr : lineStartsWithBracket line = true
    · rw [if_pos hbr] at h
      cases hsp : splitFirst ']' (line.drop 1) with
      | none =>
        rw [hsp] at h
        cases h
      | some p =>
        obtain ⟨title, junk⟩ := p
        simp only [hsp] at h
        by_cases hcont : containsK st.ini.sections title = true
        · rw [if_pos hcont] at h
          cases h
        · rw [if_neg hcont] at h
          injection h with h2
          subst h2
          intro sname hsn
          have h3 : title = sname := by simpa using hsn
          subst h3
          show containsK (st.ini.sections ++ [(title, (⟨[]⟩ : IniSection))]) title = true
          rw [containsK_iff_mem, List.map_append]
          apply List.mem_append_right
          simp only [List.map_cons, List.map_nil]
          exact List.mem_cons_self _ _
    · rw [if_neg hbr] at h
      cases hcur : st.currentSection with
      | none =>
        simp [hcur] at h
      | some sname0 =>
        simp only [hcur] at h
        cases hsp : splitFirst '=' line with
        | none =>
          simp [hsp] at h
        | some p =>
          obtain ⟨k0, v0⟩ := p
          simp only [hsp] at h
          cases hs : lookupList st.ini.sections sname0 with
          | none =>
            simp only [hs] at h
            injection h with h2
            subst h2
            exact hinv
          | some s =>
            simp only [hs] at h
            by_cases hdup : containsK s.values (effKey config k0) = true
            · rw [if_pos hdup] at h
              cases h
            · rw [if_neg hdup] at h
              injection h with h2
              subst h2
              intro sname hsn
              have h4 : sname0 = sname := by simpa using hsn
              show containsK (insertIntoSection st.ini.sections sname0 (effKey config k0)
                (effValue config v0)) sname = true
              rw [containsK_iff_mem, map_fst_insertIntoSection, ← h4]
              exact (containsK_iff_mem).mp (hinv sname0 hcur)

theorem parseLines_preserves_inv (config : IniMode) :
    ∀ (ls : List (Nat × List Char)) (st st2 : ParseState),
      currentSectionInv st → parseLines config ls st = .ok st2 →
      currentSectionInv st2 := by
  intro ls
  induction ls with
  | nil =>
    intro st st2 hinv h
    injection h with h2
    subst h2
    exact hinv
  | cons x rest ih =>
    intro st st2 hinv h
    obtain ⟨ln, line⟩ := x
    simp only [parseLines] at h
    cases hp : processLine config st ln line with
    | error e =>
      rw [hp] at h
      cases h
    | ok stm =>
      rw [hp] at h
      exact ih stm st2 (processLine_preserves_inv hinv hp) h

/-- In any state satisfying the invariant (in particular any state reachable
from `initState`, by the preservation lemmas above), the lookup that models
`get_mut(section).unwrap()` cannot return `none`. -/
theorem unwrap_branch_unreachable {st : ParseState} (hinv : currentSectionInv st)
    {sname : List Char} (hcur : st.currentSection = some sname) :
    lookupList st.ini.sections sname ≠ none := by
  intro hn
  have hc := hinv sname hcur
  rw [containsK] at hc
  rw [hn] at hc
  simp at hc

end GerbilIni
